import Mathlib

/-!
# Verification of the `container-odoo-base` entrypoint helpers

Shallow embedding of the add-on collection / dependency resolution logic of
`src/entrypoint/entrypoint.py` (`_topological_sort`, `collect_addons`,
`_filter_localisation`, `is_blocked_addon`), of the Redis lock helper
`src/tools/src/lock_handler.py` (`wait_for_lock`), of the three-pass upgrade
loop and lock lifecycle of `upgrade_modules` / `initialise_instance`, of the
semaphore handling of `destroy_instance`, and of the `_file_lock` fallback.

Machine-level side effects (filesystem scanning, subprocess execution, Redis
traffic) are represented by explicit inputs: the set of discovered add-ons is
a list, subprocess success/failure is a boolean-valued oracle, and the Redis
key state is a boolean-valued function of the poll index.
-/

namespace OdooBase

/-- One discovered add-on: the directory name and the `depends` list read from
its `__manifest__.py` (class `_Addon` in `entrypoint.py`; the filesystem path
plays no role in ordering and is omitted). -/
structure Addon where
  name : String
  depends : List String
deriving DecidableEq, Repr

/-- Names of the add-ons in a discovered/deduplicated mapping, in insertion
order (the keys of the Python `dict`). -/
def names (addons : List Addon) : List String :=
  addons.map Addon.name

/-- `dep in addons`: membership test on the mapping's keys. -/
def isAddon (addons : List Addon) (d : String) : Bool :=
  addons.any (fun a => a.name = d)

/-- `addons[n].depends`.  Every call site in `_topological_sort` first checks
that `n` is a key of the mapping, so the `[]` default is never observed. -/
def depsOf (addons : List Addon) (n : String) : List String :=
  ((addons.find? (fun a => a.name = n)).map Addon.depends).getD []

/-- The dependency edge of the graph restricted to discovered names:
`edgeP addons a b` holds when `b` is listed in `a`'s `depends` and `b` is
itself a discovered add-on. -/
def edgeP (addons : List Addon) (a b : String) : Prop :=
  isAddon addons b = true ∧ b ∈ depsOf addons a

instance (addons : List Addon) (a b : String) : Decidable (edgeP addons a b) :=
  inferInstanceAs (Decidable (isAddon addons b = true ∧ b ∈ depsOf addons a))

/-- A dependency cycle through `n`: a nonempty edge path leading from `n`
back to `n`. -/
def HasCycleAt (addons : List Addon) (n : String) : Prop :=
  ∃ l : List String, List.Chain (edgeP addons) n (l ++ [n])

/-- The restricted dependency graph has no cycle. -/
def Acyclic (addons : List Addon) : Prop :=
  ¬ ∃ n, HasCycleAt addons n

/-- The mutable state of the depth-first traversal in `_topological_sort`:
`temp` holds the names with temporary mark `0` (most recent first — the
recursion stack), `perm` the names with permanent mark `1`, and `out` the
output list being built. -/
structure DfsState where
  temp : List String
  perm : List String
  out : List String
deriving DecidableEq, Repr

/-- `ValueError(f"dependency cycle detected at {n}")`. -/
def cycleMsg (n : String) : String :=
  "dependency cycle detected at " ++ n

/-- Marker for fuel exhaustion of the embedded recursion.  The Python
recursion has no such bound; the chosen fuel is proved sufficient, so this
error never escapes `topologicalSort`. -/
def fuelMsg : String := "recursion fuel exhausted"

/-- One step of the `for dep in addons[n].depends: if dep in addons:
visit(dep)` loop.  A raised `ValueError` aborts the traversal, which the
`Except` accumulator models by absorbing every later step. -/
def stepDep (addons : List Addon)
    (visitF : String → DfsState → Except String DfsState)
    (acc : Except String DfsState) (d : String) : Except String DfsState :=
  match acc with
  | .error e => .error e
  | .ok s => if isAddon addons d then visitF d s else .ok s

/-- The inner `visit(n)` helper of `_topological_sort`. -/
def visit (addons : List Addon) : Nat → String → DfsState →
    Except String DfsState
  | 0, _, _ => .error fuelMsg
  | fuel' + 1, n, s =>
    if n ∈ s.perm then .ok s
    else if n ∈ s.temp then .error (cycleMsg n)
    else
      match (depsOf addons n).foldl
          (stepDep addons (fun d st => visit addons fuel' d st))
          (.ok { s with temp := n :: s.temp }) with
      | .error e => .error e
      | .ok s2 =>
          .ok { temp := s2.temp.erase n, perm := n :: s2.perm,
                out := s2.out ++ [n] }

/-- The top-level loop `for name in addons: if visited.get(name) != 1:
visit(name)` of `_topological_sort`. -/
def visitAll (addons : List Addon) (fuel : Nat) (ns : List String)
    (s : DfsState) : Except String DfsState :=
  match ns with
  | [] => .ok s
  | n :: ns' =>
    if n ∈ s.perm then visitAll addons fuel ns' s
    else
      match visit addons fuel n s with
      | .error e => .error e
      | .ok s' => visitAll addons fuel ns' s'

/-- `_topological_sort(addons)`: dependency-ordered list of the mapping's
keys, or a `ValueError` message on a dependency cycle.  The fuel
`addons.length + 1` bounds the depth of the Python recursion, whose stack
of temporarily-marked names never exceeds the number of keys. -/
def topologicalSort (addons : List Addon) : Except String (List String) :=
  match visitAll addons (addons.length + 1) (names addons) ⟨[], [], []⟩ with
  | .error e => .error e
  | .ok s => .ok s.out

/-! ## Localisation filtering (`L10N_RE`, `_filter_localisation`) -/

/-- ASCII letter test for the character class `[a-z]` under `re.IGNORECASE`
(add-on directory names are ASCII). -/
def isAsciiLetter (c : Char) : Bool :=
  ('a' ≤ c && c ≤ 'z') || ('A' ≤ c && c ≤ 'Z')

/-- In `re`, `$` matches at the end of the string or just before a final
newline; matching against the anchored pattern therefore ignores one
trailing `'\n'`. -/
def stripTrailingNewline (cs : List Char) : List Char :=
  match cs.getLast? with
  | some c => if c = '\n' then cs.dropLast else cs
  | none => cs

/-- The optional suffix `(?:_.+)?` after the country code: either nothing, or
an underscore followed by at least one character, none of which is a
newline (`.` does not match `'\n'`). -/
def l10nSuffixOk (rest : List Char) : Bool :=
  match rest with
  | [] => true
  | r0 :: rtail => r0 = '_' && !rtail.isEmpty && rtail.all (fun c => c ≠ '\n')

/-- `L10N_RE.match(name)` for
`L10N_RE = re.compile(r"^l10n_([a-z]\x7b2\x7d)(?:_.+)?$", re.IGNORECASE)`:
returns `match.group(1)` (the two-letter country code, case preserved) when
the name matches the localisation naming convention. -/
def l10nCapture (name : String) : Option (List Char) :=
  match stripTrailingNewline name.toList with
  | c0 :: c1 :: c2 :: c3 :: c4 :: c5 :: c6 :: rest =>
    if (c0.toLower = 'l' && c1 = '1' && c2 = '0' && c3.toLower = 'n' &&
        c4 = '_' && isAsciiLetter c5 && isAsciiLetter c6) &&
        l10nSuffixOk rest then
      some [c5, c6]
    else none
  | _ => none

/-- `str.lower()` on the ASCII strings involved here. -/
def lowerChars (cs : List Char) : List Char :=
  cs.map Char.toLower

/-- `_filter_localisation(addon, allowed_cc)`: non-localisation names always
pass; a localisation name passes only when its lowered country code is in
`allowed_cc`. -/
def filter_localisation (a : Addon) (allowed_cc : List String) : Bool :=
  match l10nCapture a.name with
  | none => true
  | some cc => allowed_cc.contains (String.mk (lowerChars cc))

/-! ## `collect_addons` -/

/-- `lang.split("_", 1)[1]` when `"_" in lang`: everything after the first
underscore. -/
def afterFirstUnderscore : List Char → Option (List Char)
  | [] => none
  | c :: cs => if c = '_' then some cs else afterFirstUnderscore cs

/-- The `allowed_cc` set built by `collect_addons`: for every language of the
`ll_CC` form (containing an underscore) the lowered part after the first
underscore is added; `languages=None` yields the empty set. -/
def allowedCc (languages : Option (List String)) : List String :=
  match languages with
  | none => []
  | some ls =>
      ls.foldl (fun acc lang =>
        match afterFirstUnderscore lang.toList with
        | some cs => acc ++ [String.mk (lowerChars cs)]
        | none => acc) []

/-- The deduplicated mapping built by the main loop of `collect_addons`:
blocked names and filtered localisations are skipped, and the first
occurrence of a name wins (`dict.setdefault`).  The blocklist test
`is_blocked_addon(name, *patterns)` (a regex search) is abstracted as the
boolean predicate `blocked`. -/
def buildAddons (discovered : List Addon) (languages : Option (List String))
    (blocked : String → Bool) : List Addon :=
  discovered.foldl (fun acc a =>
    if blocked a.name then acc
    else if !filter_localisation a (allowedCc languages) then acc
    else if isAddon acc a.name then acc
    else acc ++ [a]) []

/-- `collect_addons(paths, languages=…, blocklist_patterns=…)`, with the
filesystem scan `_iter_addons` represented by the list `discovered` of
add-ons it yields, in order.  Returns the dependency-sorted list of names or
the `ValueError` message raised on a cycle. -/
def collect_addons (discovered : List Addon) (languages : Option (List String))
    (blocked : String → Bool) : Except String (List String) :=
  let addons := buildAddons discovered languages blocked
  if addons.isEmpty then .ok []
  else topologicalSort addons

/-- Checks that a list of names is ordered by dependencies: every name's
discovered dependencies occur among the names already seen (`seen` collects
the processed prefix). -/
def okOrder (addons : List Addon) : List String → List String → Bool
  | _, [] => true
  | seen, n :: rest =>
      (depsOf addons n).all
        (fun d => !isAddon addons d || seen.contains d) &&
      okOrder addons (n :: seen) rest

/-! ## `lock_handler.wait_for_lock` -/

/-- Possible terminations of `wait_for_lock`.  The Python function never
returns normally: it calls `sys.exit(0)` when the key is gone and
`sys.exit(1)` on timeout; `returns` represents a normal return to the
caller and is produced by no run. -/
inductive WaitOutcome where
  | returns
  | exitOk (polls slept : Nat)
  | exitTimeout (polls slept : Nat)
deriving DecidableEq, Repr

/-- The `while attempt < max_attempts` loop of `wait_for_lock`, with the
Redis key state abstracted as `existsAt i` (result of the `client.exists`
call number `i`, 0-based) and the remaining iteration budget counted down
explicitly.  `slept` accumulates the seconds spent in `time.sleep`. -/
def waitLoop (existsAt : Nat → Bool) (sleepSeconds : Nat) :
    Nat → Nat → Nat → WaitOutcome
  | 0, attempt, slept => .exitTimeout attempt slept
  | remaining + 1, attempt, slept =>
      if existsAt attempt then
        waitLoop existsAt sleepSeconds remaining (attempt + 1)
          (slept + sleepSeconds)
      else .exitOk (attempt + 1) slept

/-- `wait_for_lock(name)` with its default `max_attempts=1080` and
`sleep_seconds=10`. -/
def wait_for_lock (existsAt : Nat → Bool) : WaitOutcome :=
  waitLoop existsAt 10 1080 0 0

/-! ## The three-pass retry loop of `upgrade_modules` -/

/-- `Char` code-point comparison, `≤`. -/
def charsLe : List Char → List Char → Bool
  | [], _ => true
  | _ :: _, [] => false
  | a :: as, b :: bs =>
      if a = b then charsLe as bs else decide (a.toNat < b.toNat)

/-- Lexicographic `≤` on strings by Unicode code point, as used by Python's
`sorted`. -/
def strLe (a b : String) : Bool :=
  charsLe a.toList b.toList

/-- Insertion into a sorted list. -/
def insertSorted (x : String) : List String → List String
  | [] => [x]
  | y :: ys => if strLe x y then x :: y :: ys else y :: insertSorted x ys

/-- `sorted(remaining)`. -/
def sortStrings (l : List String) : List String :=
  l.foldr insertSorted []

/-- State carried between passes of the upgrade loop: the set of modules
still to upgrade and the number of subprocess invocations so far. -/
structure UpgSt where
  remaining : List String
  invocations : Nat
deriving DecidableEq, Repr

/-- One `for attempt in range(1, 4)` iteration of `upgrade_modules`
(production branch: `/usr/bin/odoo` exists, so every module in the sorted
snapshot of `remaining` is invoked once).  `succeeds m p` tells whether the
subprocess for module `m` exits 0 in pass `p`; the modules whose subprocess
failed make up the next `remaining`. -/
def doPass (succeeds : String → Nat → Bool) (p : Nat) (s : UpgSt) : UpgSt :=
  if s.remaining.isEmpty then s
  else
    let snap := sortStrings s.remaining
    { remaining := snap.filter (fun m => succeeds m p = false),
      invocations := s.invocations + snap.length }

/-- The three passes, starting from `remaining = set(modules)`. -/
def upgradePasses (succeeds : String → Nat → Bool) (modules : List String) :
    UpgSt :=
  doPass succeeds 3 (doPass succeeds 2 (doPass succeeds 1 ⟨modules.dedup, 0⟩))

/-- Outcome of the pass loop and its post-processing in `upgrade_modules`:
either the `RuntimeError("all module upgrades failed")` (raised **before**
the revision-marker refresh), or normal completion with the sorted list of
still-failing modules (nonempty ⇒ the partial-failure warning is printed)
and whether the revision marker was refreshed (`tsSet` tells whether
`ODOO_ADDONS_TIMESTAMP` is set). -/
inductive UpgOutcome where
  | fatal (invocations : Nat)
  | done (invocations : Nat) (stillFailing : List String)
      (markerRefreshed : Bool)
deriving DecidableEq, Repr

/-- Lines 1819–1905 of `entrypoint.py`: the retry loop over a non-empty
resolved module list, the total-failure check
`len(remaining) == len(modules)`, the partial-failure warning and the
marker refresh. -/
def upgrade_modules_run (succeeds : String → Nat → Bool)
    (modules : List String) (tsSet : Bool) : UpgOutcome :=
  let s := upgradePasses succeeds modules
  if !s.remaining.isEmpty && s.remaining.length == modules.length then
    .fatal s.invocations
  else
    .done s.invocations (sortStrings s.remaining) tsSet

/-- Whether an upgrade outcome refreshed the revision marker. -/
def UpgOutcome.refreshedMarker : UpgOutcome → Bool
  | .fatal _ => false
  | .done _ _ mk => mk

/-- Whether an upgrade outcome printed the partial-failure warning. -/
def UpgOutcome.warnedPartial : UpgOutcome → Bool
  | .fatal _ => false
  | .done _ fails _ => !fails.isEmpty

/-- Subprocess invocations performed by an upgrade outcome. -/
def UpgOutcome.invocationCount : UpgOutcome → Nat
  | .fatal inv => inv
  | .done inv _ _ => inv

/-! ## Lock lifecycle of `initialise_instance` / `upgrade_modules` -/

/-- Events on the distributed lock, in program order. -/
inductive LockEv where
  | acquireOk
  | acquireFail
  | waited
  | released
deriving DecidableEq, Repr

/-- How a run of the function ends. -/
inductive ExitKind where
  | returned
  | raised
  | processExit
deriving DecidableEq, Repr

/-- Branch conditions of `initialise_instance` (production environment: the
`lock_handler` module imports, `PYTEST_CURRENT_TEST` is unset and the
`/usr/bin/odoo` binary exists). -/
structure InitFlags where
  acquireOk : Bool
  restorePresent : Bool
  restoreOk : Bool
  regenerateOk : Bool
  helpersOk : Bool
  firstTryOk : Bool
  retryOk : Bool
deriving DecidableEq, Repr

/-- The control flow of `initialise_instance` projected onto its `initlead`
lock events.  The release call sits at the very end of the function body
with no `try`/`finally`, so the early `return` of the restore-success path
and every raised `CalledProcessError` skip it. -/
def initialise_instance_locks (f : InitFlags) : List LockEv × ExitKind :=
  if f.acquireOk = false then
    -- acquisition failed: wait_for_lock (which exits the process) then the
    -- unreachable `return`
    ([.acquireFail, .waited], .processExit)
  else if f.restorePresent && f.restoreOk then
    if f.regenerateOk then
      -- restore succeeded: semaphores are written and the function returns
      -- early, never reaching the release at the end of the body
      ([.acquireOk], .returned)
    else ([.acquireOk], .raised)
  else if f.helpersOk = false then
    -- `odoo-addon-updater` / `odoo-config --defaults` raised: no release
    ([.acquireOk], .raised)
  else if f.firstTryOk then ([.acquireOk, .released], .returned)
  else if f.retryOk then ([.acquireOk, .released], .returned)
  else
    -- second `odoo --init` failure re-raises: no release
    ([.acquireOk], .raised)

/-- Branch conditions of `upgrade_modules` (production environment). -/
structure UpgFlags where
  acquireOk : Bool
  noAutoUpgrade : Bool
  updateNeeded : Bool
  modulesEmpty : Bool
  allFail : Bool
deriving DecidableEq, Repr

/-- The control flow of `upgrade_modules` projected onto its `upgradelead`
lock events.  Every early `return` releases explicitly, but the
`RuntimeError("all module upgrades failed")` is raised without a release. -/
def upgrade_modules_locks (f : UpgFlags) : List LockEv × ExitKind :=
  if f.acquireOk = false then
    ([.acquireFail, .waited], .processExit)
  else if f.noAutoUpgrade then ([.acquireOk, .released], .returned)
  else if f.updateNeeded = false then ([.acquireOk, .released], .returned)
  else if f.modulesEmpty then ([.acquireOk, .released], .returned)
  else if f.allFail then ([.acquireOk], .raised)
  else ([.acquireOk, .released], .returned)

/-! ## `destroy_instance` semaphore handling -/

/-- The pieces of persistent state touched by `destroy_instance`. -/
structure OdooFs where
  destroyMarker : Bool
  scaffoldMarker : Bool
  revisionMarker : Bool
  dbPresent : Bool
  filestorePresent : Bool
deriving DecidableEq, Repr

/-- Effects of a completed `destroy_instance` run: the database is dropped
and recreated, the filestore removed (`ignore_errors=True`), and the
`.destroy` / `.scaffolded` semaphores unlinked (`FileNotFoundError`
ignored).  No statement in the function touches the revision marker
`/etc/odoo/.timestamp` (`ADDON_TIMESTAMP_FILE`). -/
def destroy_instance_fs (s : OdooFs) : OdooFs :=
  { s with
    dbPresent := true,
    filestorePresent := false,
    destroyMarker := false,
    scaffoldMarker := false }

/-! ## `_file_lock` creation-based fallback -/

/-- State of `<target>.lock` and of the protected body across one run of the
`_file_lock` context manager. -/
structure LockFsSt where
  lockFileExists : Bool
  bodyRuns : Nat
deriving DecidableEq, Repr

/-- The ENOTSUP/EOPNOTSUPP branch of `_file_lock`, single process (no
contender): `lock_path.open("a+b")` creates the lock file if missing, the
failed `flock` leads to closing the descriptor and unlinking the
placeholder, the `os.open(O_CREAT|O_EXCL)` spin succeeds exactly because
the file is now absent, the body runs, and the `finally` block closes the
descriptor and unlinks the sentinel.  `none` stands for the sleep-and-retry
branch, reachable only under contention. -/
def file_lock_enotsup (s0 : LockFsSt) : Option LockFsSt :=
  let s1 : LockFsSt := { s0 with lockFileExists := true }
  let s2 : LockFsSt := { s1 with lockFileExists := false }
  if s2.lockFileExists then none
  else
    let s3 : LockFsSt := { s2 with lockFileExists := true }
    let s4 : LockFsSt := { s3 with bodyRuns := s3.bodyRuns + 1 }
    some { s4 with lockFileExists := false }

/-! ## Invariants of the depth-first traversal -/

/-- The temporary marks form the dependency chain of the recursion stack:
each entry is a discovered dependency of the entry below it. -/
def TempChain (addons : List Addon) (temp : List String) : Prop :=
  List.Chain' (fun a b => edgeP addons b a) temp

/-- Relation between a visited name and the stack: `visit n` is invoked
either at top level (empty stack) or from the dependency loop of the name
on top of the stack, which then has an edge to `n`. -/
def CallOk (addons : List Addon) (n : String) (temp : List String) : Prop :=
  ∀ m t, temp = m :: t → edgeP addons m n

/-- Invariant of the traversal state. -/
structure Inv (addons : List Addon) (s : DfsState) : Prop where
  tempNodup : s.temp.Nodup
  tempNames : ∀ x ∈ s.temp, x ∈ names addons
  tempPerm : ∀ x ∈ s.temp, x ∉ s.perm
  permOut : ∀ x, x ∈ s.perm ↔ x ∈ s.out
  outNodup : s.out.Nodup
  outNames : ∀ x ∈ s.out, x ∈ names addons
  outOrder : okOrder addons [] s.out = true

/-- What a successful `visit` guarantees. -/
def VisitOk (addons : List Addon) (s s' : DfsState) (n : String) : Prop :=
  s'.temp = s.temp ∧ Inv addons s' ∧ (∀ x ∈ s.perm, x ∈ s'.perm) ∧
    n ∈ s'.perm

/-- Full specification of one `visit` call: it either succeeds with the
guarantees of `VisitOk` or raises the cycle error for a name that really
lies on a dependency cycle. -/
def VisitConcl (addons : List Addon) (fuel : Nat) (n : String)
    (s : DfsState) : Prop :=
  (∃ s', visit addons fuel n s = .ok s' ∧ VisitOk addons s s' n)
  ∨ (∃ c, visit addons fuel n s = .error (cycleMsg c) ∧ HasCycleAt addons c)

theorem isAddon_iff {addons : List Addon} {d : String} :
    isAddon addons d = true ↔ d ∈ names addons := by
  constructor
  · intro h
    rcases List.any_eq_true.mp h with ⟨a, ha, he⟩
    have hd : a.name = d := by simpa using he
    exact hd ▸ List.mem_map_of_mem Addon.name ha
  · intro h
    rcases List.mem_map.mp h with ⟨a, ha, rfl⟩
    exact List.any_eq_true.mpr ⟨a, ha, by simp⟩

theorem length_names (addons : List Addon) :
    (names addons).length = addons.length := by
  simp [names]

theorem temp_length_le {addons : List Addon} {temp : List String}
    (hnd : temp.Nodup) (hsub : ∀ x ∈ temp, x ∈ names addons) :
    temp.length ≤ (names addons).length :=
  (List.subperm_of_subset hnd hsub).length_le

theorem foldl_stepDep_error (addons : List Addon)
    (vf : String → DfsState → Except String DfsState) (e : String) :
    ∀ ds : List String,
      ds.foldl (stepDep addons vf) (.error e) = .error e := by
  intro ds
  induction ds with
  | nil => rfl
  | cons d ds ih => simpa [stepDep] using ih

theorem okOrder_append (addons : List Addon) :
    ∀ (xs : List String) (seen : List String) (n : String),
      (okOrder addons seen (xs ++ [n]) = true ↔
        (okOrder addons seen xs = true ∧
          ∀ d ∈ depsOf addons n, isAddon addons d = true →
            (d ∈ xs ∨ d ∈ seen))) := by
  intro xs
  induction xs with
  | nil =>
      intro seen n
      simp only [List.nil_append, okOrder, Bool.and_eq_true, List.all_eq_true]
      constructor
      · rintro ⟨h, -⟩
        refine ⟨trivial, fun d hd hdd => ?_⟩
        have := h d hd
        simp [hdd] at this
        exact Or.inr (by simpa using this)
      · rintro ⟨-, h⟩
        refine ⟨fun d hd => ?_, trivial⟩
        by_cases hdd : isAddon addons d = true
        · rcases h d hd hdd with h' | h'
          · exact absurd h' (List.not_mem_nil d)
          · simp [hdd, h']
        · simp [Bool.not_eq_true] at hdd
          simp [hdd]
  | cons x xs ih =>
      intro seen n
      simp only [List.cons_append, okOrder, Bool.and_eq_true, List.append_eq]
      rw [ih (x :: seen) n]
      constructor
      · rintro ⟨hx, hrest, hdeps⟩
        refine ⟨⟨hx, hrest⟩, fun d hd hdd => ?_⟩
        rcases hdeps d hd hdd with h' | h'
        · exact Or.inl (List.mem_cons_of_mem x h')
        · rcases List.mem_cons.mp h' with h'' | h''
          · exact Or.inl (h'' ▸ List.mem_cons_self x xs)
          · exact Or.inr h''
      · rintro ⟨⟨hx, hrest⟩, hdeps⟩
        refine ⟨hx, hrest, fun d hd hdd => ?_⟩
        rcases hdeps d hd hdd with h' | h'
        · rcases List.mem_cons.mp h' with h'' | h''
          · exact Or.inr (h'' ▸ List.mem_cons_self x seen)
          · exact Or.inl h''
        · exact Or.inr (List.mem_cons_of_mem x h')

theorem cycle_of_stack {addons : List Addon} {temp : List String}
    {m n : String} {t : List String}
    (hchain : TempChain addons temp) (hhead : temp = m :: t)
    (hedge : edgeP addons m n) (hmem : n ∈ temp) :
    HasCycleAt addons n := by
  obtain ⟨pre, post, hsplit⟩ := List.append_of_mem hmem
  refine ⟨pre.reverse, ?_⟩
  have hpref : (pre ++ [n]) <+: temp := ⟨post, by rw [hsplit]; simp⟩
  have hc1 : List.Chain' (fun a b => edgeP addons b a) (pre ++ [n]) :=
    List.Chain'.prefix hchain hpref
  have hc2 : List.Chain' (edgeP addons) ((pre ++ [n]).reverse) :=
    List.chain'_reverse.mpr hc1
  rw [List.reverse_append, List.reverse_singleton, List.singleton_append]
    at hc2
  cases pre with
  | nil =>
      have h2 : m :: t = n :: post := by rw [← hhead, hsplit]; simp
      injection h2 with h2a h2b
      subst h2a
      exact List.Chain.cons hedge List.Chain.nil
  | cons p pre' =>
      have hpm : p = m := by
        rw [hsplit] at hhead
        simpa using congrArg (fun l => l.head?) hhead
      subst hpm
      have hlast : (n :: (p :: pre').reverse).getLast? = some p := by
        rw [List.reverse_cons, ← List.cons_append]
        exact List.getLast?_concat _
      have happ : List.Chain' (edgeP addons)
          ((n :: (p :: pre').reverse) ++ [n]) := by
        refine List.Chain'.append hc2 ?_ ?_
        · exact List.chain'_singleton n
        · intro x hx y hy
          rw [hlast] at hx
          simp only [List.head?_cons, Option.mem_def, Option.some.injEq] at hx hy
          rw [← hx, ← hy]
          exact hedge
      rw [List.cons_append] at happ
      exact happ

/-- Conclusion of a successful run of the dependency loop. -/
def FoldOk (addons : List Addon) (s s' : DfsState) (ds : List String) :
    Prop :=
  s'.temp = s.temp ∧ Inv addons s' ∧ (∀ x ∈ s.perm, x ∈ s'.perm) ∧
    (∀ d ∈ ds, isAddon addons d = true → d ∈ s'.perm)

theorem foldl_spec {addons : List Addon} (fuel : Nat)
    (IH : ∀ (n : String) (s : DfsState), n ∈ names addons → Inv addons s →
      TempChain addons s.temp → CallOk addons n s.temp →
      (names addons).length < fuel + s.temp.length →
      VisitConcl addons fuel n s) :
    ∀ (ds : List String) (m : String) (s : DfsState), Inv addons s →
      TempChain addons s.temp → (∃ t, s.temp = m :: t) →
      (∀ d ∈ ds, d ∈ depsOf addons m) →
      (names addons).length < fuel + s.temp.length →
      (∃ s', ds.foldl (stepDep addons (fun d st => visit addons fuel d st))
          (.ok s) = .ok s' ∧ FoldOk addons s s' ds)
      ∨ (∃ c, ds.foldl (stepDep addons (fun d st => visit addons fuel d st))
          (.ok s) = .error (cycleMsg c) ∧ HasCycleAt addons c) := by
  intro ds
  induction ds with
  | nil =>
      intro m s hinv hch hhd hds hfuel
      exact Or.inl ⟨s, rfl, rfl, hinv, fun x h => h,
        fun d h => absurd h (List.not_mem_nil d)⟩
  | cons d ds ih =>
      intro m s hinv hch hhd hds hfuel
      obtain ⟨t, ht⟩ := hhd
      by_cases hda : isAddon addons d = true
      · have hcall : CallOk addons d s.temp := by
          intro m' t' h'
          rw [ht] at h'
          injection h' with h1 h2
          subst h1
          exact ⟨hda, hds d (List.mem_cons_self d ds)⟩
        have hd_names : d ∈ names addons := isAddon_iff.mp hda
        have hstep : stepDep addons (fun d st => visit addons fuel d st)
            (.ok s) d = visit addons fuel d s := by
          simp [stepDep, hda]
        rcases IH d s hd_names hinv hch hcall hfuel with
          ⟨s2, hok, hVok⟩ | ⟨c, herr, hcyc⟩
        · obtain ⟨htemp, hinv2, hperm2, hdp⟩ := hVok
          have hrec := ih m s2 hinv2 (by rw [htemp]; exact hch)
            ⟨t, by rw [htemp, ht]⟩
            (fun d' hd' => hds d' (List.mem_cons_of_mem d hd'))
            (by rw [htemp]; exact hfuel)
          have hfold1 : (d :: ds).foldl
              (stepDep addons (fun d st => visit addons fuel d st)) (.ok s) =
              ds.foldl (stepDep addons (fun d st => visit addons fuel d st))
                (.ok s2) := by
            rw [List.foldl_cons, hstep, hok]
          rcases hrec with ⟨s', hfok, hFok⟩ | ⟨c, herr', hcyc'⟩
          · left
            obtain ⟨htempF, hinv', hpermF, hdsF⟩ := hFok
            refine ⟨s', by rw [hfold1]; exact hfok,
              htempF.trans htemp, hinv',
              fun x hx => hpermF x (hperm2 x hx), ?_⟩
            intro d' hd' hda'
            rcases List.mem_cons.mp hd' with h' | h'
            · exact h' ▸ hpermF d hdp
            · exact hdsF d' h' hda'
          · exact Or.inr ⟨c, by rw [hfold1]; exact herr', hcyc'⟩
        · right
          refine ⟨c, ?_, hcyc⟩
          rw [List.foldl_cons, hstep, herr]
          exact foldl_stepDep_error addons _ _ ds
      · have hstep : stepDep addons (fun d st => visit addons fuel d st)
            (.ok s) d = .ok s := by
          simp [stepDep, hda]
        have hrec := ih m s hinv hch ⟨t, ht⟩
          (fun d' hd' => hds d' (List.mem_cons_of_mem d hd')) hfuel
        rcases hrec with ⟨s', hfok, hFok⟩ | ⟨c, herr', hcyc'⟩
        · left
          obtain ⟨htempF, hinv', hpermF, hdsF⟩ := hFok
          refine ⟨s', by rw [List.foldl_cons, hstep]; exact hfok,
            htempF, hinv', hpermF, ?_⟩
          intro d' hd' hda'
          rcases List.mem_cons.mp hd' with h' | h'
          · exact absurd (h' ▸ hda') (by simp [hda])
          · exact hdsF d' h' hda'
        · exact Or.inr ⟨c, by rw [List.foldl_cons, hstep]; exact herr', hcyc'⟩

theorem visit_spec {addons : List Addon} :
    ∀ (fuel : Nat) (n : String) (s : DfsState), n ∈ names addons →
      Inv addons s → TempChain addons s.temp → CallOk addons n s.temp →
      (names addons).length < fuel + s.temp.length →
      VisitConcl addons fuel n s := by
  intro fuel
  induction fuel with
  | zero =>
      intro n s hn hinv hch hcall hfuel
      exfalso
      have hle := temp_length_le hinv.tempNodup hinv.tempNames
      omega
  | succ fuel ih =>
      intro n s hn hinv hch hcall hfuel
      by_cases hperm : n ∈ s.perm
      · exact Or.inl ⟨s, by simp [visit, hperm], rfl, hinv, fun x h => h,
          hperm⟩
      · by_cases htemp : n ∈ s.temp
        · right
          refine ⟨n, by simp [visit, hperm, htemp], ?_⟩
          obtain ⟨m, t, hmt⟩ : ∃ m t, s.temp = m :: t := by
            cases h : s.temp with
            | nil => rw [h] at htemp; cases htemp
            | cons a l => exact ⟨a, l, rfl⟩
          exact cycle_of_stack hch hmt (hcall m t hmt) htemp
        · have hinv1 : Inv addons { s with temp := n :: s.temp } := by
            refine ⟨List.nodup_cons.mpr ⟨htemp, hinv.tempNodup⟩, ?_, ?_,
              hinv.permOut, hinv.outNodup, hinv.outNames, hinv.outOrder⟩
            · intro x hx
              rcases List.mem_cons.mp hx with h' | h'
              · exact h' ▸ hn
              · exact hinv.tempNames x h'
            · intro x hx
              rcases List.mem_cons.mp hx with h' | h'
              · exact h' ▸ hperm
              · exact hinv.tempPerm x h'
          have hch1 : TempChain addons (n :: s.temp) := by
            refine List.chain'_cons'.mpr ⟨?_, hch⟩
            intro y hy
            cases h : s.temp with
            | nil => rw [h] at hy; cases hy
            | cons m t =>
                rw [h] at hy
                simp only [List.head?_cons, Option.mem_def,
                  Option.some.injEq] at hy
                exact hy ▸ hcall m t h
          have hfuel1 : (names addons).length <
              fuel + (n :: s.temp).length := by
            simp only [List.length_cons]
            omega
          have hfold := foldl_spec fuel ih (depsOf addons n) n
            { s with temp := n :: s.temp } hinv1 hch1 ⟨s.temp, rfl⟩
            (fun d h => h) hfuel1
          rcases hfold with ⟨s2, hfok, hFok⟩ | ⟨c, herr, hcyc⟩
          · left
            obtain ⟨htemp2, hinv2, hperm2, hdeps2⟩ := hFok
            have hn_temp2 : n ∈ s2.temp := by
              rw [htemp2]; exact List.mem_cons_self n s.temp
            have hn_nperm2 : n ∉ s2.perm := hinv2.tempPerm n hn_temp2
            have hn_nout2 : n ∉ s2.out :=
              fun h => hn_nperm2 ((hinv2.permOut n).mpr h)
            have herase : s2.temp.erase n = s.temp := by
              rw [htemp2]
              exact List.erase_cons_head n s.temp
            refine ⟨⟨s2.temp.erase n, n :: s2.perm, s2.out ++ [n]⟩, ?_,
              herase, ?_, ?_, ?_⟩
            · simp only [visit, hperm, htemp, if_neg, if_false]
              rw [hfok]
            · refine ⟨?_, ?_, ?_, ?_, ?_, ?_, ?_⟩
              · simpa [herase] using hinv.tempNodup
              · intro x hx
                rw [herase] at hx
                exact hinv.tempNames x hx
              · intro x hx
                rw [herase] at hx
                have hx2 : x ∈ s2.temp := by
                  rw [htemp2]; exact List.mem_cons_of_mem n hx
                have hxn : x ≠ n := fun h => htemp (h ▸ hx)
                intro hmem
                rcases List.mem_cons.mp hmem with h' | h'
                · exact hxn h'
                · exact hinv2.tempPerm x hx2 h'
              · intro x
                simp only [List.mem_cons, List.mem_append,
                  List.mem_singleton]
                rw [hinv2.permOut x]
                tauto
              · simp only [List.nodup_append, List.nodup_cons,
                  List.nodup_nil, List.disjoint_singleton]
                exact ⟨hinv2.outNodup, by simp, by simpa using hn_nout2⟩
              · intro x hx
                rcases List.mem_append.mp hx with h' | h'
                · exact hinv2.outNames x h'
                · exact (List.mem_singleton.mp h') ▸ hn
              · rw [okOrder_append]
                refine ⟨hinv2.outOrder, fun d hd hda => ?_⟩
                exact Or.inl ((hinv2.permOut d).mp (hdeps2 d hd hda))
            · intro x hx
              exact List.mem_cons_of_mem n (hperm2 x hx)
            · exact List.mem_cons_self n s2.perm
          · right
            refine ⟨c, ?_, hcyc⟩
            simp only [visit, hperm, htemp, if_neg, if_false]
            rw [herr]

theorem visitAll_spec {addons : List Addon} (fuel : Nat)
    (hfuel : (names addons).length < fuel) :
    ∀ (ns : List String) (s : DfsState), (∀ x ∈ ns, x ∈ names addons) →
      Inv addons s → s.temp = [] →
      (∃ s', visitAll addons fuel ns s = .ok s' ∧ Inv addons s' ∧
        s'.temp = [] ∧ (∀ x ∈ ns, x ∈ s'.perm) ∧
        (∀ x ∈ s.perm, x ∈ s'.perm))
      ∨ (∃ c, visitAll addons fuel ns s = .error (cycleMsg c) ∧
        HasCycleAt addons c) := by
  intro ns
  induction ns with
  | nil =>
      intro s hns hinv htemp
      exact Or.inl ⟨s, rfl, hinv, htemp,
        fun x h => absurd h (List.not_mem_nil x), fun x h => h⟩
  | cons n ns ih =>
      intro s hns hinv htemp
      by_cases hp : n ∈ s.perm
      · have hrec := ih s (fun x h => hns x (List.mem_cons_of_mem n h))
          hinv htemp
        rcases hrec with ⟨s', hok, hinv', htemp', hns', hperm'⟩ |
          ⟨c, herr, hcyc⟩
        · left
          refine ⟨s', by simp [visitAll, hp]; exact hok, hinv', htemp',
            ?_, hperm'⟩
          intro x hx
          rcases List.mem_cons.mp hx with h' | h'
          · exact h' ▸ hperm' n hp
          · exact hns' x h'
        · exact Or.inr ⟨c, by simp [visitAll, hp]; exact herr, hcyc⟩
      · have hch : TempChain addons s.temp := by
          rw [htemp]; exact List.chain'_nil
        have hcall : CallOk addons n s.temp := by
          intro m t h
          rw [htemp] at h
          cases h
        have hvs := visit_spec fuel n s (hns n (List.mem_cons_self n ns))
          hinv hch hcall (by rw [htemp]; simpa using hfuel)
        rcases hvs with ⟨s2, hok, htemp2, hinv2, hperm2, hnp2⟩ |
          ⟨c, herr, hcyc⟩
        · have hrec := ih s2 (fun x h => hns x (List.mem_cons_of_mem n h))
            hinv2 (htemp2.trans htemp)
          rcases hrec with ⟨s', hok', hinv', htemp', hns', hperm'⟩ |
            ⟨c, herr', hcyc'⟩
          · left
            refine ⟨s', ?_, hinv', htemp', ?_, ?_⟩
            · simp only [visitAll, hp, if_neg, if_false]
              rw [hok]
              exact hok'
            · intro x hx
              rcases List.mem_cons.mp hx with h' | h'
              · exact h' ▸ hperm' n hnp2
              · exact hns' x h'
            · exact fun x hx => hperm' x (hperm2 x hx)
          · right
            refine ⟨c, ?_, hcyc'⟩
            simp only [visitAll, hp, if_neg, if_false]
            rw [hok]
            exact herr'
        · right
          refine ⟨c, ?_, hcyc⟩
          simp only [visitAll, hp, if_neg, if_false]
          rw [herr]

theorem inv_init (addons : List Addon) : Inv addons ⟨[], [], []⟩ := by
  refine ⟨List.nodup_nil, ?_, ?_, ?_, List.nodup_nil, ?_, rfl⟩
  · intro x hx; cases hx
  · intro x hx; cases hx
  · intro x; simp
  · intro x hx; cases hx

theorem topologicalSort_spec (addons : List Addon) :
    (∃ out, topologicalSort addons = .ok out ∧ out.Nodup ∧
      (∀ x, x ∈ out ↔ x ∈ names addons) ∧ okOrder addons [] out = true)
    ∨ (∃ c, topologicalSort addons = .error (cycleMsg c) ∧
      HasCycleAt addons c) := by
  have h := visitAll_spec (addons.length + 1)
    (by rw [length_names]; omega) (names addons) ⟨[], [], []⟩
    (fun x h => h) (inv_init addons) rfl
  rcases h with ⟨s', hok, hinv', -, hns', -⟩ | ⟨c, herr, hcyc⟩
  · left
    refine ⟨s'.out, ?_, hinv'.outNodup, ?_, hinv'.outOrder⟩
    · simp only [topologicalSort]
      rw [hok]
    · intro x
      constructor
      · exact hinv'.outNames x
      · intro hx
        exact (hinv'.permOut x).mp (hns' x hx)
  · right
    refine ⟨c, ?_, hcyc⟩
    simp only [topologicalSort]
    rw [herr]

theorem okOrder_mem_split {addons : List Addon} :
    ∀ (pre : List String) (x : String) (post seen : List String),
      okOrder addons seen (pre ++ x :: post) = true →
      ∀ d ∈ depsOf addons x, isAddon addons d = true →
        d ∈ pre ∨ d ∈ seen := by
  intro pre
  induction pre with
  | nil =>
      intro x post seen h d hd hda
      simp only [List.nil_append, okOrder, Bool.and_eq_true,
        List.all_eq_true] at h
      have h2 := h.1 d hd
      simp [hda] at h2
      exact Or.inr (by simpa using h2)
  | cons p pre ih =>
      intro x post seen h d hd hda
      simp only [List.cons_append, okOrder, Bool.and_eq_true] at h
      rcases ih x post (p :: seen) h.2 d hd hda with h' | h'
      · exact Or.inl (List.mem_cons_of_mem p h')
      · rcases List.mem_cons.mp h' with h'' | h''
        · exact Or.inl (h'' ▸ List.mem_cons_self p pre)
        · exact Or.inr h''

theorem edge_before {addons : List Addon} {out : List String}
    (hord : okOrder addons [] out = true) (hnd : out.Nodup)
    {a b : String} (he : edgeP addons a b) (ha : a ∈ out) :
    out.indexOf b < out.indexOf a := by
  obtain ⟨pre, post, hsplit⟩ := List.append_of_mem ha
  have hb : b ∈ pre ∨ b ∈ ([] : List String) :=
    okOrder_mem_split pre a post [] (hsplit ▸ hord) b he.2 he.1
  have hbpre : b ∈ pre := by
    rcases hb with h | h
    · exact h
    · cases h
  have hanp : a ∉ pre := by
    rw [hsplit] at hnd
    intro hap
    exact (List.nodup_append.mp hnd).2.2 hap (List.mem_cons_self a post)
  rw [hsplit]
  rw [List.indexOf_append_of_mem hbpre, List.indexOf_append_of_not_mem hanp,
    List.indexOf_cons_self]
  have := List.indexOf_lt_length.mpr hbpre
  omega

theorem chain_mem_names {addons : List Addon} :
    ∀ (l : List String) (a : String), List.Chain (edgeP addons) a l →
      ∀ x ∈ l, x ∈ names addons := by
  intro l
  induction l with
  | nil => intro a _ x hx; cases hx
  | cons c l ih =>
      intro a h x hx
      rcases List.chain_cons.mp h with ⟨hac, htail⟩
      rcases List.mem_cons.mp hx with h' | h'
      · exact h' ▸ isAddon_iff.mp hac.1
      · exact ih c htail x h'

theorem chain_last_before {addons : List Addon} {out : List String}
    (hord : okOrder addons [] out = true) (hnd : out.Nodup)
    (hno : ∀ x, x ∈ names addons → x ∈ out) :
    ∀ (l : List String) (a : String), List.Chain (edgeP addons) a l →
      a ∈ out → ∀ b, l.getLast? = some b →
      out.indexOf b < out.indexOf a := by
  intro l
  induction l with
  | nil => intro a _ _ b hb; cases hb
  | cons c l ih =>
      intro a hchain ha b hb
      rcases List.chain_cons.mp hchain with ⟨hac, htail⟩
      have hc_out : c ∈ out := hno c (isAddon_iff.mp hac.1)
      have hlt1 : out.indexOf c < out.indexOf a := edge_before hord hnd hac ha
      cases l with
      | nil =>
          simp only [List.getLast?_singleton, Option.some.injEq] at hb
          exact hb ▸ hlt1
      | cons c2 l2 =>
          rw [List.getLast?_cons_cons] at hb
          exact lt_trans (ih c htail hc_out b hb) hlt1

theorem acyclic_of_okOrder {addons : List Addon} {out : List String}
    (hord : okOrder addons [] out = true) (hnd : out.Nodup)
    (hmem : ∀ x, x ∈ out ↔ x ∈ names addons) : Acyclic addons := by
  rintro ⟨n, l, hchain⟩
  have hno : ∀ x, x ∈ names addons → x ∈ out := fun x h => (hmem x).mpr h
  have hn_names : n ∈ names addons :=
    chain_mem_names (l ++ [n]) n hchain n (by simp)
  have hn_out : n ∈ out := hno n hn_names
  have hlast : (l ++ [n]).getLast? = some n := List.getLast?_concat l
  have := chain_last_before hord hnd hno (l ++ [n]) n hchain hn_out n hlast
  exact lt_irrefl _ this

/-- A successful topological sort certifies acyclicity of the restricted
dependency graph. -/
theorem acyclic_of_topo_ok {addons : List Addon} {out : List String}
    (h : topologicalSort addons = .ok out) : Acyclic addons := by
  rcases topologicalSort_spec addons with ⟨out', hok, hnd, hmem, hord⟩ |
    ⟨c, herr, -⟩
  · rw [h] at hok
    injection hok with h2
    subst h2
    exact acyclic_of_okOrder hord hnd hmem
  · rw [h] at herr
    cases herr

theorem collect_addons_spec (discovered : List Addon)
    (languages : Option (List String)) (blocked : String → Bool) :
    (∃ out, collect_addons discovered languages blocked = .ok out ∧
      out.Nodup ∧
      (∀ x, x ∈ out ↔ x ∈ names (buildAddons discovered languages blocked)) ∧
      okOrder (buildAddons discovered languages blocked) [] out = true)
    ∨ (∃ c, collect_addons discovered languages blocked =
        .error (cycleMsg c) ∧
      HasCycleAt (buildAddons discovered languages blocked) c) := by
  by_cases hA : (buildAddons discovered languages blocked).isEmpty
  · left
    refine ⟨[], ?_, List.nodup_nil, ?_, rfl⟩
    · simp [collect_addons, hA]
    · intro x
      have hnil : buildAddons discovered languages blocked = [] :=
        List.isEmpty_iff.mp hA
      simp [hnil, names]
  · rcases topologicalSort_spec (buildAddons discovered languages blocked)
      with ⟨out, hok, hnd, hmem, hord⟩ | ⟨c, herr, hcyc⟩
    · left
      refine ⟨out, ?_, hnd, hmem, hord⟩
      simp only [collect_addons, hA, if_neg, if_false, Bool.false_eq_true]
      exact hok
    · right
      refine ⟨c, ?_, hcyc⟩
      simp only [collect_addons, hA, if_neg, if_false, Bool.false_eq_true]
      exact herr

theorem mem_buildAddons_aux (languages : Option (List String))
    (blocked : String → Bool) (b : Addon) :
    ∀ (l : List Addon) (acc : List Addon),
      b ∈ l.foldl (fun acc a =>
        if blocked a.name then acc
        else if !filter_localisation a (allowedCc languages) then acc
        else if isAddon acc a.name then acc
        else acc ++ [a]) acc →
      b ∈ acc ∨ (b ∈ l ∧ blocked b.name = false ∧
        filter_localisation b (allowedCc languages) = true) := by
  intro l
  induction l with
  | nil => intro acc h; exact Or.inl h
  | cons a l ih =>
      intro acc h
      rw [List.foldl_cons] at h
      rcases ih _ h with h' | h'
      · by_cases h1 : blocked a.name
        · rw [if_pos h1] at h'
          exact Or.inl h'
        · rw [if_neg h1] at h'
          by_cases h2 : filter_localisation a (allowedCc languages) = true
          · rw [if_neg (by simp [h2])] at h'
            by_cases h3 : isAddon acc a.name
            · rw [if_pos h3] at h'
              exact Or.inl h'
            · rw [if_neg h3] at h'
              rcases List.mem_append.mp h' with h4 | h4
              · exact Or.inl h4
              · have hba : b = a := List.mem_singleton.mp h4
                subst hba
                exact Or.inr ⟨List.mem_cons_self b l,
                  Bool.not_eq_true _ ▸ eq_false_of_ne_true h1, h2⟩
          · rw [if_pos (by simp [Bool.not_eq_true] at h2 ⊢; exact h2)] at h'
            exact Or.inl h'
      · exact Or.inr ⟨List.mem_cons_of_mem a h'.1, h'.2.1, h'.2.2⟩

theorem mem_buildAddons {discovered : List Addon}
    {languages : Option (List String)} {blocked : String → Bool} {b : Addon}
    (h : b ∈ buildAddons discovered languages blocked) :
    b ∈ discovered ∧ blocked b.name = false ∧
      filter_localisation b (allowedCc languages) = true := by
  rcases mem_buildAddons_aux languages blocked b discovered [] h with h' | h'
  · cases h'
  · exact h'

theorem allowedCc_nil {ls : List String}
    (h : ∀ l ∈ ls, afterFirstUnderscore l.toList = none) :
    allowedCc (some ls) = [] := by
  suffices H : ∀ (l : List String) (acc : List String),
      (∀ x ∈ l, afterFirstUnderscore x.toList = none) →
      (l.foldl (fun acc lang =>
        match afterFirstUnderscore lang.toList with
        | some cs => acc ++ [String.mk (lowerChars cs)]
        | none => acc) acc) = acc by
    exact H ls [] h
  intro l
  induction l with
  | nil => intro acc _; rfl
  | cons x l ih =>
      intro acc hx
      rw [List.foldl_cons]
      have h0 : afterFirstUnderscore x.toList = none :=
        hx x (List.mem_cons_self x l)
      rw [h0]
      exact ih acc (fun y hy => hx y (List.mem_cons_of_mem x hy))

theorem insertSorted_perm (x : String) :
    ∀ l : List String, (insertSorted x l).Perm (x :: l) := by
  intro l
  induction l with
  | nil => exact List.Perm.refl _
  | cons y ys ih =>
      simp only [insertSorted]
      by_cases h : strLe x y = true
      · rw [if_pos h]
      · rw [if_neg h]
        exact (ih.cons y).trans (List.Perm.swap x y ys)

theorem sortStrings_perm (l : List String) : (sortStrings l).Perm l := by
  induction l with
  | nil => exact List.Perm.refl _
  | cons x xs ih =>
      simp only [sortStrings, List.foldr_cons]
      exact (insertSorted_perm x _).trans (ih.cons x)

theorem mem_sortStrings {a : String} {l : List String} :
    a ∈ sortStrings l ↔ a ∈ l :=
  (sortStrings_perm l).mem_iff

theorem length_sortStrings (l : List String) :
    (sortStrings l).length = l.length :=
  (sortStrings_perm l).length_eq

theorem doPass_all_fail (succeeds : String → Nat → Bool) (p : Nat)
    (r : List String) (inv : Nat) (hne : r ≠ [])
    (hf : ∀ m ∈ r, succeeds m p = false) :
    doPass succeeds p ⟨r, inv⟩ = ⟨sortStrings r, inv + r.length⟩ := by
  simp only [doPass]
  rw [if_neg (by simpa [List.isEmpty_iff] using hne)]
  have hfilter : (sortStrings r).filter (fun m => succeeds m p = false) =
      sortStrings r := by
    rw [List.filter_eq_self]
    intro m hm
    simp [hf m (mem_sortStrings.mp hm)]
  simp only [hfilter, length_sortStrings]

/-! ## Claim theorems -/

/-- C1: for every acyclic set of discovered add-ons (after blocklist and
locale filtering), `collect_addons` returns a list in which each add-on name
appears exactly once and every add-on appears after all of its dependencies
that are present in the discovered set; dependencies absent from the set are
not constrained. -/
theorem collect_addons_acyclic_topological_order
    (discovered : List Addon) (languages : Option (List String))
    (blocked : String → Bool)
    (hacyc : Acyclic (buildAddons discovered languages blocked)) :
    ∃ out, collect_addons discovered languages blocked = .ok out ∧
      (∀ x, x ∈ out ↔ x ∈ names (buildAddons discovered languages blocked)) ∧
      (∀ x ∈ out, out.count x = 1) ∧
      (∀ pre x post, out = pre ++ x :: post →
        ∀ d ∈ depsOf (buildAddons discovered languages blocked) x,
          d ∈ names (buildAddons discovered languages blocked) →
          d ∈ pre) := by
  rcases collect_addons_spec discovered languages blocked with
    ⟨out, hok, hnd, hmem, hord⟩ | ⟨c, herr, hcyc⟩
  · refine ⟨out, hok, hmem,
      fun x hx => List.count_eq_one_of_mem hnd hx, ?_⟩
    intro pre x post hsplit d hd hdn
    rcases okOrder_mem_split pre x post [] (hsplit ▸ hord) d hd
      (isAddon_iff.mpr hdn) with h | h
    · exact h
    · cases h
  · exact absurd ⟨c, hcyc⟩ hacyc

/-- Witness for C1 at a concrete acyclic input. -/
theorem collect_addons_acyclic_topological_order_witness :
    ∃ out, collect_addons [⟨"web", ["base"]⟩, ⟨"base", []⟩] none
        (fun _ => false) = .ok out ∧
      (∀ x, x ∈ out ↔
        x ∈ names (buildAddons [⟨"web", ["base"]⟩, ⟨"base", []⟩] none
          (fun _ => false))) ∧
      (∀ x ∈ out, out.count x = 1) ∧
      (∀ pre x post, out = pre ++ x :: post →
        ∀ d ∈ depsOf (buildAddons [⟨"web", ["base"]⟩, ⟨"base", []⟩] none
          (fun _ => false)) x,
          d ∈ names (buildAddons [⟨"web", ["base"]⟩, ⟨"base", []⟩] none
            (fun _ => false)) → d ∈ pre) :=
  collect_addons_acyclic_topological_order _ _ _
    (acyclic_of_topo_ok (show topologicalSort
      (buildAddons [⟨"web", ["base"]⟩, ⟨"base", []⟩] none (fun _ => false)) =
      Except.ok ["base", "web"] from rfl))

/-- C3: whenever the dependency graph restricted to the discovered names
contains a cycle, `collect_addons` raises the `ValueError` cycle message
naming an add-on that lies on a cycle, and returns no list at all. -/
theorem collect_addons_cycle_error
    (discovered : List Addon) (languages : Option (List String))
    (blocked : String → Bool)
    (hcyc : ∃ n, HasCycleAt (buildAddons discovered languages blocked) n) :
    ∃ c, collect_addons discovered languages blocked =
        .error (cycleMsg c) ∧
      HasCycleAt (buildAddons discovered languages blocked) c ∧
      ∀ out, collect_addons discovered languages blocked ≠ .ok out := by
  rcases collect_addons_spec discovered languages blocked with
    ⟨out, hok, hnd, hmem, hord⟩ | ⟨c, herr, hc⟩
  · exact absurd hcyc (acyclic_of_okOrder hord hnd hmem)
  · refine ⟨c, herr, hc, ?_⟩
    intro out h
    rw [herr] at h
    cases h

/-- Witness for C3 at a concrete two-cycle. -/
theorem collect_addons_cycle_error_witness :
    ∃ c, collect_addons [⟨"a", ["b"]⟩, ⟨"b", ["a"]⟩] none (fun _ => false) =
        .error (cycleMsg c) ∧
      HasCycleAt (buildAddons [⟨"a", ["b"]⟩, ⟨"b", ["a"]⟩] none
        (fun _ => false)) c ∧
      ∀ out, collect_addons [⟨"a", ["b"]⟩, ⟨"b", ["a"]⟩] none
        (fun _ => false) ≠ .ok out :=
  collect_addons_cycle_error _ _ _
    ⟨"a", ["b"], List.Chain.cons (by decide)
      (List.Chain.cons (by decide) List.Chain.nil)⟩

/-- C4: when every module of a non-empty resolved list fails its upgrade
subprocess in all three passes, `upgrade_modules` raises the
`RuntimeError("all module upgrades failed")` before the revision-marker
refresh, so the marker is not refreshed. -/
theorem upgrade_modules_total_failure_fatal
    (succeeds : String → Nat → Bool) (modules : List String) (tsSet : Bool)
    (hne : modules ≠ []) (hnd : modules.Nodup)
    (hfail : ∀ m ∈ modules, succeeds m 1 = false ∧ succeeds m 2 = false ∧
      succeeds m 3 = false) :
    upgrade_modules_run succeeds modules tsSet =
      .fatal (3 * modules.length) ∧
    (upgrade_modules_run succeeds modules tsSet).refreshedMarker =
      false := by
  have hdedup : modules.dedup = modules := List.dedup_eq_self.mpr hnd
  have hmem1 : ∀ m ∈ sortStrings modules, m ∈ modules :=
    fun m hm => mem_sortStrings.mp hm
  have hmem2 : ∀ m ∈ sortStrings (sortStrings modules), m ∈ modules :=
    fun m hm => hmem1 m (mem_sortStrings.mp hm)
  have hne1 : sortStrings modules ≠ [] := by
    intro h
    apply hne
    have hl := length_sortStrings modules
    rw [h] at hl
    exact List.eq_nil_of_length_eq_zero hl.symm
  have hne2 : sortStrings (sortStrings modules) ≠ [] := by
    intro h
    apply hne1
    have hl := length_sortStrings (sortStrings modules)
    rw [h] at hl
    exact List.eq_nil_of_length_eq_zero hl.symm
  have h1 := doPass_all_fail succeeds 1 modules 0 hne
    (fun m hm => (hfail m hm).1)
  have h2 := doPass_all_fail succeeds 2 (sortStrings modules)
    (0 + modules.length) hne1 (fun m hm => (hfail m (hmem1 m hm)).2.1)
  have h3 := doPass_all_fail succeeds 3 (sortStrings (sortStrings modules))
    (0 + modules.length + (sortStrings modules).length) hne2
    (fun m hm => (hfail m (hmem2 m hm)).2.2)
  have hpasses : upgradePasses succeeds modules =
      ⟨sortStrings (sortStrings (sortStrings modules)),
        0 + modules.length + (sortStrings modules).length +
          (sortStrings (sortStrings modules)).length⟩ := by
    simp only [upgradePasses]
    rw [hdedup, h1, h2, h3]
  have hlen3 : (sortStrings (sortStrings (sortStrings modules))).length =
      modules.length := by
    rw [length_sortStrings, length_sortStrings, length_sortStrings]
  have hne3 : (sortStrings (sortStrings (sortStrings modules))).isEmpty =
      false := by
    have hnn : sortStrings (sortStrings (sortStrings modules)) ≠ [] := by
      intro h
      apply hne2
      have hl := length_sortStrings (sortStrings (sortStrings modules))
      rw [h] at hl
      exact List.eq_nil_of_length_eq_zero hl.symm
    cases hcase : sortStrings (sortStrings (sortStrings modules)) with
    | nil => exact absurd hcase hnn
    | cons a l => rfl
  have hinv : 0 + modules.length + (sortStrings modules).length +
      (sortStrings (sortStrings modules)).length = 3 * modules.length := by
    simp only [length_sortStrings]
    omega
  constructor
  · simp only [upgrade_modules_run, hpasses]
    rw [hne3]
    simp only [Bool.not_false, Bool.true_and, hlen3, beq_self_eq_true,
      if_pos]
    rw [hinv]
  · simp only [upgrade_modules_run, hpasses]
    rw [hne3]
    simp only [Bool.not_false, Bool.true_and, hlen3, beq_self_eq_true,
      if_pos]
    rfl

/-- Witness for C4 at a concrete all-failing input. -/
theorem upgrade_modules_total_failure_fatal_witness :
    upgrade_modules_run (fun _ _ => false) ["a", "b"] true = .fatal 6 ∧
    (upgrade_modules_run (fun _ _ => false) ["a", "b"] true).refreshedMarker
      = false :=
  upgrade_modules_total_failure_fatal (fun _ _ => false) ["a", "b"] true
    (by decide) (by decide) (by decide)

/-- C5: with modules `{ok, fail}`, `ok` succeeding on its first invocation
and `fail` failing always, `upgrade_modules` performs exactly 4 subprocess
invocations (both modules in pass 1, `fail` alone in passes 2 and 3), emits
the partial-failure warning, still refreshes the revision marker, and does
not raise. -/
theorem upgrade_modules_partial_failure_scenario :
    upgrade_modules_run (fun m _ => m == "ok") ["ok", "fail"] true =
      .done 4 ["fail"] true ∧
    (upgrade_modules_run (fun m _ => m == "ok") ["ok", "fail"]
      true).invocationCount = 4 ∧
    (upgrade_modules_run (fun m _ => m == "ok") ["ok", "fail"]
      true).warnedPartial = true ∧
    (upgrade_modules_run (fun m _ => m == "ok") ["ok", "fail"]
      true).refreshedMarker = true ∧
    ∀ inv, upgrade_modules_run (fun m _ => m == "ok") ["ok", "fail"] true ≠
      .fatal inv := by
  have heq : upgrade_modules_run (fun m _ => m == "ok") ["ok", "fail"]
      true = .done 4 ["fail"] true := rfl
  refine ⟨heq, rfl, rfl, rfl, ?_⟩
  intro inv h
  rw [heq] at h
  cases h

/-- C2: contrary to the claim (and to the comment block inside
`initialise_instance` announcing a `finally`), the distributed locks are
not released on every exit path.  On the restore-success path
`initialise_instance` returns early with `initlead` still held, and on the
total-failure path `upgrade_modules` raises with `upgradelead` still held;
the plain success paths do release exactly once. -/
theorem init_upgrade_lock_release_not_guaranteed :
    initialise_instance_locks ⟨true, true, true, true, true, true, true⟩ =
      ([.acquireOk], .returned) ∧
    (initialise_instance_locks
      ⟨true, true, true, true, true, true, true⟩).1.count .released = 0 ∧
    upgrade_modules_locks ⟨true, false, true, false, true⟩ =
      ([.acquireOk], .raised) ∧
    (upgrade_modules_locks
      ⟨true, false, true, false, true⟩).1.count .released = 0 ∧
    (initialise_instance_locks
      ⟨true, false, true, true, true, true, true⟩).1.count .released = 1 ∧
    (upgrade_modules_locks
      ⟨true, false, true, false, false⟩).1.count .released = 1 := by
  decide

/-- C6 counterexample: `wait_for_lock` never returns control to its caller;
when the key is absent at the first poll it terminates the process with
`sys.exit(0)` instead of returning. -/
theorem wait_for_lock_exits_not_returns :
    wait_for_lock (fun _ => false) = .exitOk 1 0 ∧
    WaitOutcome.exitOk 1 0 ≠ WaitOutcome.returns := by
  exact ⟨rfl, by decide⟩

theorem waitLoop_all_true (existsAt : Nat → Bool) (sleepSeconds : Nat) :
    ∀ (rem attempt slept : Nat),
      (∀ k, attempt ≤ k → k < attempt + rem → existsAt k = true) →
      waitLoop existsAt sleepSeconds rem attempt slept =
        .exitTimeout (attempt + rem) (slept + sleepSeconds * rem) := by
  intro rem
  induction rem with
  | zero => intro attempt slept _; simp [waitLoop]
  | succ rem ih =>
      intro attempt slept h
      have h0 : existsAt attempt = true :=
        h attempt (Nat.le_refl _) (by omega)
      simp only [waitLoop, h0, if_pos]
      rw [ih (attempt + 1) (slept + sleepSeconds)
        (fun k hk1 hk2 => h k (by omega) (by omega))]
      have e1 : attempt + 1 + rem = attempt + (rem + 1) := by omega
      have e2 : slept + sleepSeconds + sleepSeconds * rem =
          slept + sleepSeconds * (rem + 1) := by
        rw [Nat.mul_succ]
        omega
      rw [e1, e2]

theorem waitLoop_first_false (existsAt : Nat → Bool) (sleepSeconds : Nat) :
    ∀ (rem attempt slept k : Nat), k < rem →
      existsAt (attempt + k) = false →
      (∀ j, j < k → existsAt (attempt + j) = true) →
      waitLoop existsAt sleepSeconds rem attempt slept =
        .exitOk (attempt + k + 1) (slept + sleepSeconds * k) := by
  intro rem
  induction rem with
  | zero => intro attempt slept k hk; omega
  | succ rem ih =>
      intro attempt slept k hk hfalse hj
      cases k with
      | zero =>
          have h0 : existsAt attempt = false := by simpa using hfalse
          simp [waitLoop, h0]
      | succ k =>
          have h0 : existsAt attempt = true := by
            have := hj 0 (by omega)
            simpa using this
          simp only [waitLoop, h0, if_pos]
          rw [ih (attempt + 1) (slept + sleepSeconds) k (by omega)
            (by rw [show attempt + 1 + k = attempt + (k + 1) by omega]
                exact hfalse)
            (fun j hjk => by
              rw [show attempt + 1 + j = attempt + (j + 1) by omega]
              exact hj (j + 1) (by omega))]
          have e1 : attempt + 1 + k + 1 = attempt + (k + 1) + 1 := by omega
          have e2 : slept + sleepSeconds + sleepSeconds * k =
              slept + sleepSeconds * (k + 1) := by
            rw [Nat.mul_succ]
            omega
          rw [e1, e2]

/-- C6 amended: `wait_for_lock` polls the key at a fixed 10-second interval
for at most 1080 attempts; once the key is absent it terminates the process
with exit code 0 (it does not return to the caller), and exhausting the
budget terminates the process with exit code 1 (fatal timeout). -/
theorem wait_for_lock_poll_budget (existsAt : Nat → Bool) :
    ((∀ k, k < 1080 → existsAt k = true) →
      wait_for_lock existsAt = .exitTimeout 1080 10800) ∧
    (∀ k, k < 1080 → existsAt k = false →
      (∀ j, j < k → existsAt j = true) →
      wait_for_lock existsAt = .exitOk (k + 1) (10 * k)) := by
  constructor
  · intro h
    have := waitLoop_all_true existsAt 10 1080 0 0
      (fun k _ hk => h k (by omega))
    simpa using this
  · intro k hk hfalse hj
    have := waitLoop_first_false existsAt 10 1080 0 0 k hk
      (by simpa using hfalse) (fun j hjk => by simpa using hj j hjk)
    simpa using this

/-- Witness for the amended C6: a key that disappears at the third poll. -/
theorem wait_for_lock_poll_budget_witness :
    wait_for_lock (fun i => i < 2) = .exitOk 3 20 :=
  (wait_for_lock_poll_budget (fun i => i < 2)).2 2 (by decide) (by decide)
    (by decide)

/-- C7 counterexample: `destroy_instance` leaves the revision marker
(`/etc/odoo/.timestamp`) in place — starting from a state where all markers
exist, the revision marker still exists afterwards, contradicting the
claim that it is cleared. -/
theorem destroy_instance_keeps_revision_marker :
    (destroy_instance_fs ⟨true, true, true, true, true⟩).revisionMarker =
      true ∧
    destroy_instance_fs ⟨true, true, true, true, true⟩ =
      ⟨false, false, true, true, false⟩ := by
  decide

/-- C7 amended: after `destroy_instance` completes, the destroy marker and
the scaffold marker are absent, the database has been dropped and
recreated and the filestore removed, while the revision marker is left
untouched. -/
theorem destroy_instance_markers (s : OdooFs) :
    (destroy_instance_fs s).destroyMarker = false ∧
    (destroy_instance_fs s).scaffoldMarker = false ∧
    (destroy_instance_fs s).dbPresent = true ∧
    (destroy_instance_fs s).filestorePresent = false ∧
    (destroy_instance_fs s).revisionMarker = s.revisionMarker :=
  ⟨rfl, rfl, rfl, rfl, rfl⟩

/-- C8: when `flock` fails as unsupported, `_file_lock` falls back to
creation-based locking, runs its body exactly once and leaves no sentinel
file behind, whatever the initial state of the lock file. -/
theorem file_lock_enotsup_body_once_no_sentinel (s0 : LockFsSt) :
    file_lock_enotsup s0 =
      some { lockFileExists := false, bodyRuns := s0.bodyRuns + 1 } :=
  rfl

/-- C9: with a locale filter supplied, a name matching the `l10n_<cc>[...]`
convention is kept exactly when its country code is in the allowed set, and
non-locale names always pass; concretely, the filter `{AU,US}` over
`l10n_au`, `l10n_de`, `base` keeps `l10n_au` and `base` and drops
`l10n_de`. -/
theorem locale_filter_spec :
    (∀ (a : Addon) (langs : List String), l10nCapture a.name = none →
      filter_localisation a (allowedCc (some langs)) = true) ∧
    (∀ (a : Addon) (langs : List String) (cc : List Char),
      l10nCapture a.name = some cc →
      (filter_localisation a (allowedCc (some langs)) = true ↔
        (allowedCc (some langs)).contains (String.mk (lowerChars cc)) =
          true)) ∧
    (∃ out, collect_addons [⟨"l10n_au", []⟩, ⟨"l10n_de", []⟩, ⟨"base", []⟩]
        (some ["en_AU", "en_US"]) (fun _ => false) = .ok out ∧
      "l10n_au" ∈ out ∧ "base" ∈ out ∧ "l10n_de" ∉ out) := by
  refine ⟨?_, ?_, ⟨["l10n_au", "base"], rfl, by decide, by decide,
    by decide⟩⟩
  · intro a langs h
    simp [filter_localisation, h]
  · intro a langs cc h
    simp [filter_localisation, h]

/-- Witness for C9's conditional parts. -/
theorem locale_filter_spec_witness :
    filter_localisation ⟨"base", []⟩ (allowedCc (some ["en_AU"])) = true ∧
    (filter_localisation ⟨"l10n_au", []⟩ (allowedCc (some ["en_AU"])) =
        true ↔
      (allowedCc (some ["en_AU"])).contains
        (String.mk (lowerChars ['a', 'u'])) = true) :=
  ⟨locale_filter_spec.1 ⟨"base", []⟩ ["en_AU"] rfl,
    locale_filter_spec.2.1 ⟨"l10n_au", []⟩ ["en_AU"] ['a', 'u'] rfl⟩

/-- C10: with `languages=None`, or a languages list whose entries contain no
underscore, the allowed-country set is empty and every discovered add-on
matching the `l10n_<cc>[...]` convention is excluded from the result. -/
theorem empty_locale_set_excludes_l10n
    (discovered : List Addon) (blocked : String → Bool)
    (languages : Option (List String))
    (hlang : languages = none ∨ ∃ ls, languages = some ls ∧
      ∀ l ∈ ls, afterFirstUnderscore l.toList = none) :
    allowedCc languages = [] ∧
    ∀ a ∈ discovered, ∀ cc, l10nCapture a.name = some cc →
      a.name ∉ names (buildAddons discovered languages blocked) ∧
      ∀ out, collect_addons discovered languages blocked = .ok out →
        a.name ∉ out := by
  have hacc : allowedCc languages = [] := by
    rcases hlang with h | ⟨ls, hls, hnone⟩
    · rw [h]; rfl
    · rw [hls]; exact allowedCc_nil hnone
  refine ⟨hacc, ?_⟩
  intro a _ cc hcc
  have hnotin : a.name ∉ names (buildAddons discovered languages blocked) := by
    intro hmem
    rcases List.mem_map.mp hmem with ⟨b, hb, hbn⟩
    have hfilter := (mem_buildAddons hb).2.2
    rw [hacc] at hfilter
    rw [filter_localisation, hbn, hcc] at hfilter
    simp at hfilter
  refine ⟨hnotin, ?_⟩
  intro out hout hmem
  rcases collect_addons_spec discovered languages blocked with
    ⟨out', hok, -, hmemiff, -⟩ | ⟨c, herr, -⟩
  · rw [hout] at hok
    injection hok with h2
    subst h2
    exact hnotin ((hmemiff a.name).mp hmem)
  · rw [hout] at herr
    cases herr

/-- Witness for C10 with `languages=None`. -/
theorem empty_locale_set_excludes_l10n_witness :
    allowedCc none = [] ∧
    "l10n_de" ∉ names (buildAddons [⟨"l10n_de", []⟩] none
      (fun _ => false)) :=
  ⟨(empty_locale_set_excludes_l10n [⟨"l10n_de", []⟩] (fun _ => false) none
      (Or.inl rfl)).1,
    ((empty_locale_set_excludes_l10n [⟨"l10n_de", []⟩] (fun _ => false)
        none (Or.inl rfl)).2 ⟨"l10n_de", []⟩ (by decide) ['d', 'e']
      rfl).1⟩

end OdooBase
